import Mathlib

/-!
Verification of `crates/synthesis/src/two_qubit_decompose.rs` (two-qubit
Weyl/KAK decomposition and basis-gate synthesis).

The Rust source works with `f64` / `Complex64`; the shallow embedding below
uses `ℝ` and `ℂ` with the same formulas and control flow.  External numerical
primitives (the `faer` eigensolver, the PCG64 random stream) are modelled as
explicit function parameters, since they are outside this repository.
-/

namespace TwoQubitDecompose

noncomputable section

open Real Matrix

/-- Source constant `PI2 = PI / 2`. -/
def PI2 : ℝ := Real.pi / 2

/-- Source constant `PI4 = PI / 4`. -/
def PI4 : ℝ := Real.pi / 4

/-- Source constant `PI32 = 3.0 * PI2`. -/
def PI32 : ℝ := 3 * PI2

/-- Source constant `TWO_PI = 2.0 * PI`. -/
def TWO_PI : ℝ := 2 * Real.pi

/-- Rust's `f64::rem_euclid`: `x - y * (x / y).floor()` for positive `y`,
the representative of `x` modulo `y` in `[0, y)`. -/
def fmod (x y : ℝ) : ℝ := x - y * ⌊x / y⌋

/-- `c64::new(re, im)`. -/
def cplx (x y : ℝ) : ℂ := ⟨x, y⟩

/-- `trace_to_fid`: average gate fidelity `(4 + |tr|^2) / 20`
(`(4.0 + self.abs().powi(2)) / 20.0`). -/
def trace_to_fid (t : ℂ) : ℝ := (4 + Complex.abs t ^ 2) / 20

/-- `closest_partial_swap(a, b, c)` from the source:
`m + am*bm*cm*(6. + ab*ab + bc*bc + ca*ca) / 18.` where `m` is the mean,
`am, bm, cm` the deviations from the mean and `ab, bc, ca` the pairwise
differences. -/
def closest_partial_swap (a b c : ℝ) : ℝ :=
  let m := (a + b + c) / 3
  let am := a - m
  let bm := b - m
  let cm := c - m
  let ab := a - b
  let bc := b - c
  let ca := c - a
  m + am * bm * cm * (6 + ab * ab + bc * bc + ca * ca) / 18

/-! ### Weyl-chamber reduction (`TwoQubitWeylDecomposition::new_inner`,
lines 685-774, and the identical `__weyl_coordinates` flips)

The inputs `d0 d1 d2` are the values `d[i] = -arg(λ_i) / 2` computed from the
eigenvalue phases of the magic-basis matrix `M2`; since `arg ∈ (-π, π]`,
each lies in `[-π/2, π/2)`.  The fourth value is overwritten by
`d[3] = -d[0] - d[1] - d[2]` and `cs[i] = ((d[i] + d[3]) / 2).rem_euclid(2π)`.
-/

/-- `cstemp[i] = min(cs[i] mod π/2, π/2 - cs[i] mod π/2)`:
distance of `cs[i]` to the lattice `(π/2)ℤ`, the sort key. -/
def cstemp_val (x : ℝ) : ℝ := min (fmod x PI2) (PI2 - fmod x PI2)

/-- Indices `0,1,2` sorted by the keys `k0 k1 k2` (stable, mirroring Rust's
stable `sort_by` in `arg_sort` on indices `[0,1,2]`). -/
def argSort3 (k0 k1 k2 : ℝ) : Fin 3 × Fin 3 × Fin 3 :=
  if k0 ≤ k1 then
    if k1 ≤ k2 then (0, 1, 2)
    else if k0 ≤ k2 then (0, 2, 1)
    else (2, 0, 1)
  else
    if k0 ≤ k2 then (1, 0, 2)
    else if k1 ≤ k2 then (1, 2, 0)
    else (2, 1, 0)

/-- First chamber flip applied to `cs[0]` and `cs[1]`:
`if cs[i] > PI2 { cs[i] -= PI32 }`. -/
def flipA (x : ℝ) : ℝ := if x > PI2 then x - PI32 else x

/-- Second chamber flip applied to `cs[0]` and `cs[1]`:
`if cs[i] > PI4 { cs[i] = PI2 - cs[i] }` (this is the flip that counts
into `conjs`). -/
def flipB (x : ℝ) : ℝ := if x > PI4 then PI2 - x else x

/-- The chamber flips applied to `cs[2]`, in source order:
`if cs[2] > PI2 { cs[2] -= PI32 }`, then `if conjs == 1 { cs[2] = PI2 - cs[2] }`,
then `if cs[2] > PI4 { cs[2] -= PI2 }`. -/
def flipC (conjs : ℕ) (x : ℝ) : ℝ :=
  let x1 := if x > PI2 then x - PI32 else x
  let x2 := if conjs = 1 then PI2 - x1 else x1
  if x2 > PI4 then x2 - PI2 else x2

/-- `d[3] = -d[0] - d[1] - d[2]`. -/
def weyl_d3 (d0 d1 d2 : ℝ) : ℝ := -d0 - d1 - d2

/-- `cs[i] = ((d[i] + d[3]) / 2).rem_euclid(2π)` for `i = 0, 1, 2`. -/
def weyl_cs (d0 d1 d2 : ℝ) : Fin 3 → ℝ :=
  ![fmod ((d0 + weyl_d3 d0 d1 d2) / 2) TWO_PI,
    fmod ((d1 + weyl_d3 d0 d1 d2) / 2) TWO_PI,
    fmod ((d2 + weyl_d3 d0 d1 d2) / 2) TWO_PI]

/-- The permutation chosen by `arg_sort(&cstemp)` followed by the rotation
`(order[0], order[1], order[2]) = (order[1], order[2], order[0])`.  The
triple returned here is the *pre-rotation* sorted order `(o0, o1, o2)`;
the code then reads `cs[0] := cs[o1]`, `cs[1] := cs[o2]`, `cs[2] := cs[o0]`. -/
def weyl_order (d0 d1 d2 : ℝ) : Fin 3 × Fin 3 × Fin 3 :=
  argSort3 (cstemp_val (weyl_cs d0 d1 d2 0))
    (cstemp_val (weyl_cs d0 d1 d2 1))
    (cstemp_val (weyl_cs d0 d1 d2 2))

/-- The canonical angles `(a, b, c) = (cs[1], cs[0], cs[2])` produced by the
chamber reduction of `TwoQubitWeylDecomposition::new_inner` (lines 685-774).
For specialization `General` these are exactly the angles the decomposition
returns. -/
def weyl_chamber_angles (d0 d1 d2 : ℝ) : ℝ × ℝ × ℝ :=
  let cs := weyl_cs d0 d1 d2
  let o := weyl_order d0 d1 d2
  let c0 := cs o.2.1
  let c1 := cs o.2.2
  let c2 := cs o.1
  let conjs := (if flipA c0 > PI4 then 1 else 0) + (if flipA c1 > PI4 then 1 else 0)
  (flipB (flipA c1), flipB (flipA c0), flipC conjs c2)

/-- The interval the values `cs[i]` actually inhabit before the chamber
flips: `[0, π/2] ∪ (3π/2, 2π)`.  (Each `cs[i]` is `z mod 2π` for
`z = -(d_j + d_k)/2 ∈ (-π/2, π/2]`.) -/
def chamber_dom (x : ℝ) : Prop :=
  (0 ≤ x ∧ x ≤ PI2) ∨ (PI32 < x ∧ x < TWO_PI)

/-! ### Basis-gate count selection (`__num_basis_gates`, lines 313-339, and
the identical fold in `TwoQubitBasisDecomposer::call_inner` /
`TwoQubitBasisDecomposer::traces`) -/

/-- The four closed-form traces of `__num_basis_gates` /
`TwoQubitBasisDecomposer::traces`, as functions of the basis gate's `b`
coordinate and the target's Weyl coordinates `(a, b, c)`. -/
def tracesFormula (basis_b a b c : ℝ) : Fin 4 → ℂ :=
  ![cplx (4 * (Real.cos a * Real.cos b * Real.cos c))
      (4 * (Real.sin a * Real.sin b * Real.sin c)),
    cplx (4 * Real.cos (PI4 - a) * Real.cos (basis_b - b) * Real.cos c)
      (4 * Real.sin (PI4 - a) * Real.sin (basis_b - b) * Real.sin c),
    cplx (4 * Real.cos c) 0,
    cplx 4 0]

/-- The discounted fidelities
`trace_to_fid(trace[idx]) * basis_fidelity.powi(idx)`. -/
def fids (basis_b basis_fidelity a b c : ℝ) : Fin 4 → ℝ :=
  fun i => trace_to_fid (tracesFormula basis_b a b c i) * basis_fidelity ^ (i : ℕ)

/-- Rust's `Iterator::min_by` with the reversed comparator
`fid2.partial_cmp(fid1)` over the enumerated fidelities: the fold keeps the
current element unless a strictly larger value appears, reproducing
`np.argmax` (lowest index on ties). -/
def pickBest (f : Fin 4 → ℝ) : Fin 4 :=
  let s1 : Fin 4 := if f 1 > f 0 then 1 else 0
  let s2 : Fin 4 := if f 2 > f s1 then 2 else s1
  if f 3 > f s2 then 3 else s2

/-- `__num_basis_gates(basis_b, basis_fidelity, unitary)` after
`__weyl_coordinates` has produced the target's `(a, b, c)`. -/
def __num_basis_gates (basis_b basis_fidelity a b c : ℝ) : ℕ :=
  (pickBest (fids basis_b basis_fidelity a b c)).val

/-- `best_nbasis` in `TwoQubitBasisDecomposer::call_inner`:
`_num_basis_uses.unwrap_or_else(|| argmax of discounted fidelity)`. -/
def call_inner_best_nbasis (nbu : Option ℕ) (basis_b basis_fidelity a b c : ℝ) : ℕ :=
  nbu.getD (__num_basis_gates basis_b basis_fidelity a b c)

/-! ### Specialization stage of `new_inner` (lines 834-1080) -/

/-- The `Specialization` enum of the source. -/
inductive Specialization
  | General
  | IdEquiv
  | SWAPEquiv
  | PartialSWAPEquiv
  | PartialSWAPFlipEquiv
  | ControlledEquiv
  | MirrorControlledEquiv
  | fSimaabEquiv
  | fSimabbEquiv
  | fSimabmbEquiv
deriving DecidableEq

/-- The canonical angles `(a, b, c)` of the specialized decomposition, as
rewritten by the `match specialization` of `new_inner` (lines 834-1049). -/
def specializedAngles (s : Specialization) (a b c : ℝ) : ℝ × ℝ × ℝ :=
  match s with
  | .IdEquiv => (0, 0, 0)
  | .SWAPEquiv => (PI4, PI4, PI4)
  | .PartialSWAPEquiv =>
      (closest_partial_swap a b c, closest_partial_swap a b c, closest_partial_swap a b c)
  | .PartialSWAPFlipEquiv =>
      (closest_partial_swap a b (-c), closest_partial_swap a b (-c),
        -closest_partial_swap a b (-c))
  | .ControlledEquiv => (a, 0, 0)
  | .MirrorControlledEquiv => (PI4, PI4, c)
  | .fSimaabEquiv => ((a + b) / 2, (a + b) / 2, c)
  | .fSimabbEquiv => (a, (b + c) / 2, (b + c) / 2)
  | .fSimabmbEquiv => (a, (b - c) / 2, -((b - c) / 2))
  | .General => (a, b, c)

/-- `flipped_from_original`: set only in the `SWAPEquiv` branch when
`!(c > 0.)`. -/
def flipped_from_original (s : Specialization) (c : ℝ) : Prop :=
  s = Specialization.SWAPEquiv ∧ ¬c > 0

open Classical in
/-- The trace `tr` of lines 1051-1067: `4 * c64(cos da cos db cos dc,
sin da sin db sin dc)` with `[da, db, dc]` the flipped or plain angle
differences between the pre-specialization angles and the specialized ones. -/
def specialization_trace (s : Specialization) (a b c : ℝ) : ℂ :=
  let sp := specializedAngles s a b c
  let da := if flipped_from_original s c then PI2 - a - sp.1 else a - sp.1
  let db := b - sp.2.1
  let dc := if flipped_from_original s c then -c - sp.2.2 else c - sp.2.2
  4 * cplx (Real.cos da * Real.cos db * Real.cos dc)
    (Real.sin da * Real.sin db * Real.sin dc)

/-- `specialized.calculated_fidelity = tr.trace_to_fid()` (line 1068). -/
def calculated_fidelity (s : Specialization) (a b c : ℝ) : ℝ :=
  trace_to_fid (specialization_trace s a b c)

/-- The requested-fidelity gate of `new_inner` (lines 1069-1080): with a
requested fidelity present, fail exactly when
`calculated_fidelity + 1.0e-13 < fid`; otherwise return the specialized
decomposition (represented here by its calculated fidelity). -/
def specialization_fidelity_check (s : Specialization) (a b c : ℝ)
    (requested : Option ℝ) : Except String ℝ :=
  match requested with
  | some fid =>
      if calculated_fidelity s a b c + 1e-13 < fid then
        Except.error "calculated fidelity is worse than requested fidelity"
      else Except.ok (calculated_fidelity s a b c)
  | none => Except.ok (calculated_fidelity s a b c)

/-! ### `decompose_two_qubit_product_gate` (lines 183-213) -/

/-- Modelled from the spec: the determinant of a one-qubit (2×2) matrix,
`det_one_qubit` of the external one-qubit decomposer module (a dense-matrix
primitive outside this source file). -/
def det_one_qubit (m : Matrix (Fin 2) (Fin 2) ℂ) : ℂ :=
  m 0 0 * m 1 1 - m 0 1 * m 1 0

/-- `Complex64::sqrt`: the principal square root, `z ^ (1/2)` with the
principal branch of the logarithm. -/
def csqrt (z : ℂ) : ℂ := z ^ ((1 : ℂ) / 2)

/-- The upper-left 2×2 block `special_unitary[..2, ..2]`. -/
def ul_block (U : Matrix (Fin 4) (Fin 4) ℂ) : Matrix (Fin 2) (Fin 2) ℂ :=
  Matrix.of fun i j => U ⟨i.val, by omega⟩ ⟨j.val, by omega⟩

/-- The lower-left 2×2 block `special_unitary[2.., ..2]`. -/
def ll_block (U : Matrix (Fin 4) (Fin 4) ℂ) : Matrix (Fin 2) (Fin 2) ℂ :=
  Matrix.of fun i j => U ⟨i.val + 2, by omega⟩ ⟨j.val, by omega⟩

/-- `ndarray::kron` of two 2×2 matrices. -/
def kron2 (A B : Matrix (Fin 2) (Fin 2) ℂ) : Matrix (Fin 4) (Fin 4) ℂ :=
  Matrix.of fun i j =>
    A ⟨i.val / 2, by omega⟩ ⟨j.val / 2, by omega⟩ *
      B ⟨i.val % 2, by omega⟩ ⟨j.val % 2, by omega⟩

/-- The slice `temp[..;2, ..;2]` (every second row and column). -/
def downsample (T : Matrix (Fin 4) (Fin 4) ℂ) : Matrix (Fin 2) (Fin 2) ℂ :=
  Matrix.of fun i j => T ⟨2 * i.val, by omega⟩ ⟨2 * j.val, by omega⟩

/-- The 2×2 block the source settles on: the upper-left block, replaced by
the lower-left one when `|det| < 0.1`. -/
def chosen_block (U : Matrix (Fin 4) (Fin 4) ℂ) : Matrix (Fin 2) (Fin 2) ℂ :=
  if Complex.abs (det_one_qubit (ul_block U)) < 0.1 then ll_block U else ul_block U

/-- The chosen block normalized by the square root of its determinant
(`r.mapv_inplace(|x| x / det_r.sqrt())`). -/
def normalized_r (U : Matrix (Fin 4) (Fin 4) ℂ) : Matrix (Fin 2) (Fin 2) ℂ :=
  Matrix.of fun i j =>
    chosen_block U i j / csqrt (det_one_qubit (chosen_block U))

/-- The recovered left factor before normalization:
`temp = special_unitary.dot(kron(eye, r_t_conj))` downsampled. -/
def left_candidate (U : Matrix (Fin 4) (Fin 4) ℂ) : Matrix (Fin 2) (Fin 2) ℂ :=
  downsample (U * kron2 1 (normalized_r U)ᴴ)

/-- `decompose_two_qubit_product_gate(special_unitary)`: split a 4×4 matrix
into `l ⊗ r` and a residual phase, mirroring lines 183-213. -/
def decompose_two_qubit_product_gate (U : Matrix (Fin 4) (Fin 4) ℂ) :
    Except String (Matrix (Fin 2) (Fin 2) ℂ × Matrix (Fin 2) (Fin 2) ℂ × ℝ) :=
  let det_r0 := det_one_qubit (ul_block U)
  let r := if Complex.abs det_r0 < 0.1 then ll_block U else ul_block U
  let det_r := if Complex.abs det_r0 < 0.1 then det_one_qubit (ll_block U) else det_r0
  if Complex.abs det_r < 0.1 then
    Except.error "decompose_two_qubit_product_gate: unable to decompose: detR < 0.1"
  else
    let rn : Matrix (Fin 2) (Fin 2) ℂ := Matrix.of fun i j => r i j / csqrt det_r
    let temp : Matrix (Fin 4) (Fin 4) ℂ := U * kron2 1 rnᴴ
    let l := downsample temp
    let det_l := det_one_qubit l
    if Complex.abs det_l < 0.9 then
      Except.error "decompose_two_qubit_product_gate: unable to decompose: detL < 0.9"
    else
      Except.ok (Matrix.of fun i j => l i j / csqrt det_l, rn, Complex.arg det_l / 2)

/-- The exact failure condition of `decompose_two_qubit_product_gate`: both
candidate blocks have determinant magnitude below `0.1`, or a block was
accepted but the recovered left factor has determinant magnitude below
`0.9`. -/
def product_decompose_fails (U : Matrix (Fin 4) (Fin 4) ℂ) : Prop :=
  (Complex.abs (det_one_qubit (ul_block U)) < 0.1 ∧
      Complex.abs (det_one_qubit (ll_block U)) < 0.1) ∨
    (¬(Complex.abs (det_one_qubit (ul_block U)) < 0.1 ∧
        Complex.abs (det_one_qubit (ll_block U)) < 0.1) ∧
      Complex.abs (det_one_qubit (left_candidate U)) < 0.9)

/-- The concrete input refuting the claimed failure condition: the diagonal
matrix `diag(1, 1, 0, 1)`.  Its upper-left block is the identity
(determinant magnitude 1), yet the recovered left factor is singular. -/
def U_c5 : Matrix (Fin 4) (Fin 4) ℂ :=
  Matrix.of fun i j => if i = j ∧ ¬i = 2 then 1 else 0

/-- The `r` component of a product-decomposition result, `none` on error. -/
def result_r
    (e : Except String (Matrix (Fin 2) (Fin 2) ℂ × Matrix (Fin 2) (Fin 2) ℂ × ℝ)) :
    Option (Matrix (Fin 2) (Fin 2) ℂ) :=
  match e with
  | .ok x => some x.2.1
  | .error _ => none

/-! ### Randomized-retry diagonalization loop of `new_inner` (lines 637-684)

The `faer` self-adjoint eigensolver and the PCG64 sample stream are external
to this file; they enter as the parameters `eig` and `s`.  The loop body and
the fixed first-trial override `(1.2602066112249388, 0.22317849046722027)`
are mirrored from the source. -/

/-- The verbatim first-trial coefficients (`if i == 0`). -/
def fixed_trial_pair : ℝ × ℝ := (1.2602066112249388, 0.22317849046722027)

/-- The coefficients used at trial `i`: the fixed pair at `i = 0`, the
seeded random stream `s` afterwards. -/
def trial_pair (s : ℕ → ℝ × ℝ) (i : ℕ) : ℝ × ℝ :=
  if i = 0 then fixed_trial_pair else s i

/-- `m2.mapv(|val| rand_a * val.re + rand_b * val.im)`. -/
def m2_real_combination (m2 : Matrix (Fin 4) (Fin 4) ℂ) (ra rb : ℝ) :
    Matrix (Fin 4) (Fin 4) ℝ :=
  Matrix.of fun i j => ra * (m2 i j).re + rb * (m2 i j).im

open Classical in
/-- One trial of the diagonalization loop: diagonalize the random real
combination with the external eigensolver `eig`, read off
`d_inner = diag(Pᵀ M2 P)`, and accept when `P diag(d) Pᵀ` matches `M2`
entrywise within `1.0e-13` (the `abs_diff_eq!` check). -/
def diag_trial (eig : Matrix (Fin 4) (Fin 4) ℝ → Matrix (Fin 4) (Fin 4) ℝ)
    (m2 : Matrix (Fin 4) (Fin 4) ℂ) (pr : ℝ × ℝ) :
    Option (Matrix (Fin 4) (Fin 4) ℂ × (Fin 4 → ℂ)) :=
  let p : Matrix (Fin 4) (Fin 4) ℂ :=
    (eig (m2_real_combination m2 pr.1 pr.2)).map Complex.ofReal
  let d : Fin 4 → ℂ := fun i => (pᵀ * m2 * p) i i
  let compare := p * Matrix.diagonal d * pᵀ
  if ∀ i j, |(compare i j - m2 i j).re| ≤ 1e-13 ∧ |(compare i j - m2 i j).im| ≤ 1e-13
  then some (p, d) else none

/-- The retry loop `for i in 0..100`, with `fuel` trials left starting at
trial index `i`. -/
def diag_loop_aux (eig : Matrix (Fin 4) (Fin 4) ℝ → Matrix (Fin 4) (Fin 4) ℝ)
    (s : ℕ → ℝ × ℝ) (m2 : Matrix (Fin 4) (Fin 4) ℂ) :
    ℕ → ℕ → Option (Matrix (Fin 4) (Fin 4) ℂ × (Fin 4 → ℂ))
  | 0, _ => none
  | fuel + 1, i =>
      match diag_trial eig m2 (trial_pair s i) with
      | some r => some r
      | none => diag_loop_aux eig s m2 fuel (i + 1)

/-- The bounded randomized-retry diagonalization of `new_inner`
(lines 641-684): 100 trials, trial 0 with the fixed verbatim pair, the rest
drawn from the stream `s` (in the source, PCG64 seeded with the constant
2023).  `none` models the non-retryable diagonalization error. -/
def diag_loop (eig : Matrix (Fin 4) (Fin 4) ℝ → Matrix (Fin 4) (Fin 4) ℝ)
    (s : ℕ → ℝ × ℝ) (m2 : Matrix (Fin 4) (Fin 4) ℂ) :
    Option (Matrix (Fin 4) (Fin 4) ℂ × (Fin 4 → ℂ)) :=
  diag_loop_aux eig s m2 100 0

end

/-! ### Pulse-optimal chooser (`pulse_optimal_chooser`, lines 1660-1710, and
the dispatch in `call_inner`, lines 1883-1891)

These definitions are computable: the matrices involved in the closed-form
rewrites (`get_sx_vz_2cx/3cx_efficient_euler`, which return `Option`) enter
as the abstract results `res2`, `res3`. -/

/-- Modelled from the spec: the Euler bases of the external one-qubit
decomposer, `EulerBasis ∈ {ZYZ, ZXZ, XYX, XZX, ZSX, ZSXX, …}` (the enum
itself lives in `euler_one_qubit_decomposer`, outside this source file). -/
inductive EulerBasis
  | ZYZ
  | ZXZ
  | XYX
  | XZX
  | ZSX
  | ZSXX
deriving DecidableEq

/-- `TwoQubitBasisDecomposer::pulse_optimal_chooser`: the tristate described
in the spec (`Ok(Some _)` applied, `Ok(None)` fallback allowed,
`Err` hard failure), with the closed-form rewrite results for use counts 3
and 2 abstracted as `res3`, `res2`. -/
def pulse_optimal_chooser {α : Type} (pulse_optimize : Option Bool)
    (euler_basis : EulerBasis) (gate_is_cx : Bool) (best_nbasis : ℕ)
    (res2 res3 : Option α) : Except String (Option α) :=
  if pulse_optimize.isSome ∧ (best_nbasis = 0 ∨ best_nbasis = 1 ∨ 3 < best_nbasis) then
    Except.ok none
  else if ¬(euler_basis = EulerBasis.ZSX ∨ euler_basis = EulerBasis.ZSXX) then
    if pulse_optimize.isSome then
      Except.error "pulse_optimize currently only works with ZSX basis"
    else Except.ok none
  else if gate_is_cx = false then
    if pulse_optimize.isSome then
      Except.error "pulse_optimizer currently only works with CNOT entangling gate"
    else Except.ok none
  else
    let res := if best_nbasis = 3 then res3 else if best_nbasis = 2 then res2 else none
    if pulse_optimize.isSome ∧ res.isNone = true then
      Except.error "Failed to compute requested pulse optimal decomposition"
    else Except.ok res

/-- The pulse-path dispatch of `call_inner` (lines 1883-1888):
`self.pulse_optimize.unwrap_or(true)` decides whether the chooser runs at
all; its error propagates out of `call_inner` via `?`. -/
def call_inner_pulse {α : Type} (pulse_optimize : Option Bool)
    (euler_basis : EulerBasis) (gate_is_cx : Bool) (best_nbasis : ℕ)
    (res2 res3 : Option α) : Except String (Option α) :=
  if pulse_optimize.getD true = true then
    pulse_optimal_chooser pulse_optimize euler_basis gate_is_cx best_nbasis res2 res3
  else Except.ok none

/-- `Result::is_err`: whether an `Except` value is the error case. -/
def isError {ε α : Type} (e : Except ε α) : Bool :=
  match e with
  | .error _ => true
  | .ok _ => false

/-- The claim's notion of structural inapplicability of the pulse-optimized
rewrite: entangling gate not CX, or Euler basis not ZSX/ZSXX, or the rewrite
uncomputable for the chosen use count of 2 or 3. -/
def pulse_structurally_inapplicable {α : Type} (euler_basis : EulerBasis)
    (gate_is_cx : Bool) (best_nbasis : ℕ) (res2 res3 : Option α) : Prop :=
  gate_is_cx = false ∨
    ¬(euler_basis = EulerBasis.ZSX ∨ euler_basis = EulerBasis.ZSXX) ∨
    (best_nbasis = 2 ∧ res2.isNone = true) ∨ (best_nbasis = 3 ∧ res3.isNone = true)

/-! ## Theorems -/

/-- C10: `closest_partial_swap(x, x, x) = x` — the mean is `x` and the
correction term vanishes because every deviation from the mean is zero. -/
theorem closest_partial_swap_diag (x : ℝ) : closest_partial_swap x x x = x := by
  unfold closest_partial_swap
  ring

theorem trace_to_fid_cplx (x y : ℝ) :
    trace_to_fid (cplx x y) = (4 + (x * x + y * y)) / 20 := by
  unfold trace_to_fid cplx
  rw [Complex.sq_abs, Complex.normSq_mk]

theorem trace_to_fid_pos (t : ℂ) : 0 < trace_to_fid t := by
  unfold trace_to_fid
  positivity

theorem pickBest_le (f : Fin 4 → ℝ) (j : Fin 4) : f j ≤ f (pickBest f) := by
  simp only [pickBest]
  split_ifs with h1 h2 h3 h4 h5 h6 h7 <;> fin_cases j <;> simp_all <;> linarith

theorem pickBest_lt (f : Fin 4 → ℝ) (j : Fin 4)
    (h : j.val < (pickBest f).val) : f j < f (pickBest f) := by
  simp only [pickBest] at h ⊢
  split_ifs at h ⊢ with h1 h2 h3 h4 h5 h6 h7 <;> fin_cases j <;>
    simp_all <;> first | linarith | exact absurd h (by decide)

/-- C3: the basis-gate use count chosen by `__num_basis_gates` (and by
`call_inner` when the caller supplies no `_num_basis_uses`) is the smallest
index in `{0,1,2,3}` maximizing `trace_to_fid(trace_k) * basis_fidelity^k`
over the four closed-form traces, with ties broken toward the lowest count
(first-max semantics). -/
theorem num_basis_gates_first_max (basis_b basis_fidelity a b c : ℝ) :
    __num_basis_gates basis_b basis_fidelity a b c
        = (pickBest (fids basis_b basis_fidelity a b c)).val
      ∧ call_inner_best_nbasis none basis_b basis_fidelity a b c
        = __num_basis_gates basis_b basis_fidelity a b c
      ∧ (∀ j : Fin 4, fids basis_b basis_fidelity a b c j
          ≤ fids basis_b basis_fidelity a b c (pickBest (fids basis_b basis_fidelity a b c)))
      ∧ (∀ j : Fin 4, (j : ℕ) < (pickBest (fids basis_b basis_fidelity a b c)).val →
          fids basis_b basis_fidelity a b c j
            < fids basis_b basis_fidelity a b c (pickBest (fids basis_b basis_fidelity a b c))) :=
  ⟨rfl, rfl, pickBest_le _, pickBest_lt _⟩

/-- C7 (amended): for a fixed target, the use count returned by
`__num_basis_gates` is monotonically non-*decreasing* in `basis_fidelity`
(a better basis gate never forces fewer applications; as the fidelity
penalty vanishes the count grows toward the exact count). -/
theorem num_basis_gates_monotone (basis_b a b c f1 f2 : ℝ)
    (hf1 : 0 < f1) (h12 : f1 ≤ f2) :
    __num_basis_gates basis_b f1 a b c ≤ __num_basis_gates basis_b f2 a b c := by
  by_contra hcon
  push_neg at hcon
  unfold __num_basis_gates at hcon
  have hA := pickBest_lt (fids basis_b f1 a b c)
    (pickBest (fids basis_b f2 a b c)) hcon
  have hB := pickBest_le (fids basis_b f2 a b c)
    (pickBest (fids basis_b f1 a b c))
  set k1 := pickBest (fids basis_b f1 a b c) with hk1
  set k2 := pickBest (fids basis_b f2 a b c) with hk2
  have hf2 : 0 < f2 := lt_of_lt_of_le hf1 h12
  have hr1 : (1 : ℝ) ≤ f2 / f1 := (one_le_div hf1).mpr h12
  have hpow : (f2 / f1) ^ k2.val ≤ (f2 / f1) ^ k1.val :=
    pow_le_pow_right₀ hr1 (le_of_lt hcon)
  have ht1 : 0 < trace_to_fid (tracesFormula basis_b a b c k1) := trace_to_fid_pos _
  have ht2 : 0 < trace_to_fid (tracesFormula basis_b a b c k2) := trace_to_fid_pos _
  simp only [fids] at hA hB
  have hne : f1 ≠ 0 := ne_of_gt hf1
  have key : trace_to_fid (tracesFormula basis_b a b c k2) * f2 ^ (k2 : ℕ)
      < trace_to_fid (tracesFormula basis_b a b c k1) * f2 ^ (k1 : ℕ) := by
    calc trace_to_fid (tracesFormula basis_b a b c k2) * f2 ^ (k2 : ℕ)
        = (trace_to_fid (tracesFormula basis_b a b c k2) * f1 ^ (k2 : ℕ))
            * (f2 / f1) ^ (k2 : ℕ) := by
          rw [div_pow]
          field_simp
          ring
      _ < (trace_to_fid (tracesFormula basis_b a b c k1) * f1 ^ (k1 : ℕ))
            * (f2 / f1) ^ (k2 : ℕ) := by
          apply mul_lt_mul_of_pos_right hA
          positivity
      _ ≤ (trace_to_fid (tracesFormula basis_b a b c k1) * f1 ^ (k1 : ℕ))
            * (f2 / f1) ^ (k1 : ℕ) := by
          apply mul_le_mul_of_nonneg_left hpow
          positivity
      _ = trace_to_fid (tracesFormula basis_b a b c k1) * f2 ^ (k1 : ℕ) := by
          rw [div_pow]
          field_simp
          ring
  linarith

/-- C7 witness: the amended monotonicity theorem applied at
`f1 = f2 = 1` and target angles `(0, 0, 0)`. -/
theorem num_basis_gates_monotone_witness :
    (0 : ℝ) < 1 ∧ (1 : ℝ) ≤ 1 ∧
      __num_basis_gates 0 1 0 0 0 ≤ __num_basis_gates 0 1 0 0 0 :=
  ⟨by norm_num, le_refl 1,
    num_basis_gates_monotone 0 0 0 0 1 1 (by norm_num) (le_refl 1)⟩

theorem fids_cnot_point (f : ℝ) :
    fids 0 f PI4 0 0 = ![3 / 5, f, f ^ 2, f ^ 3] := by
  have h2 : Real.sqrt 2 * Real.sqrt 2 = 2 := Real.mul_self_sqrt (by norm_num)
  have hc : Real.cos PI4 = Real.sqrt 2 / 2 := by
    rw [PI4]; exact Real.cos_pi_div_four
  funext j
  fin_cases j
  · simp [fids, tracesFormula, trace_to_fid_cplx, hc]
    linear_combination (1 : ℝ) / 5 * h2
  · simp [fids, tracesFormula, trace_to_fid_cplx, hc]
    norm_num
  · simp [fids, tracesFormula, trace_to_fid_cplx, hc]
    norm_num
  · simp [fids, tracesFormula, trace_to_fid_cplx, hc]
    norm_num

/-- C7 counterexample: the claim as stated (count non-increasing as
`basis_fidelity` grows) fails at target Weyl angles `(π/4, 0, 0)` with
`basis_b = 0`: with `f1 = 1/2 ≤ f2 = 1` the count *rises* from 0 to 1. -/
theorem num_basis_gates_monotone_cex :
    (1 / 2 : ℝ) ≤ 1 ∧
      ¬(__num_basis_gates 0 1 PI4 0 0 ≤ __num_basis_gates 0 (1 / 2) PI4 0 0) := by
  have n1 : __num_basis_gates 0 1 PI4 0 0 = 1 := by
    unfold __num_basis_gates
    rw [fids_cnot_point]
    norm_num [pickBest]
  have n0 : __num_basis_gates 0 (1 / 2) PI4 0 0 = 0 := by
    unfold __num_basis_gates
    rw [fids_cnot_point]
    norm_num [pickBest]
  rw [n1, n0]
  norm_num

/-- C6 counterexample: with `pulse_optimize = Some(true)`, a use count of 0
and a non-ZSX Euler basis (structurally inapplicable by the claim's own
listing), `call_inner`'s pulse dispatch returns `Ok(None)` — a silent
fallback to generic synthesis, not a hard error. -/
theorem pulse_chooser_cex :
    pulse_structurally_inapplicable (α := Unit) EulerBasis.ZYZ true 0 none none ∧
      call_inner_pulse (α := Unit) (some true) EulerBasis.ZYZ true 0 none none
        = Except.ok none :=
  ⟨Or.inr (Or.inl (by decide)), rfl⟩

/-- C6 (amended): with `pulse_optimize = Some(true)`, the pulse path is a
hard error exactly when the chosen use count is 2 or 3 and it is
structurally inapplicable (Euler basis not ZSX/ZSXX, entangling gate not
CX, or the closed-form rewrite for that count unavailable); for use counts
0 and 1 the chooser yields no sequence and generic synthesis proceeds
without error. -/
theorem pulse_chooser_forced_error_iff {α : Type} (basis : EulerBasis)
    (g : Bool) (n : ℕ) (res2 res3 : Option α) :
    isError (call_inner_pulse (some true) basis g n res2 res3) = true ↔
      (n = 2 ∨ n = 3) ∧
        (¬(basis = EulerBasis.ZSX ∨ basis = EulerBasis.ZSXX) ∨ g = false ∨
          (n = 2 ∧ res2.isNone = true) ∨ (n = 3 ∧ res3.isNone = true)) := by
  rcases n with _ | _ | _ | _ | n
  · simp [call_inner_pulse, pulse_optimal_chooser, isError]
  · simp [call_inner_pulse, pulse_optimal_chooser, isError]
  · by_cases hb : basis = EulerBasis.ZSX ∨ basis = EulerBasis.ZSXX
    · rcases hb with hb | hb <;> subst hb <;> cases g <;> cases res2 <;>
        simp [call_inner_pulse, pulse_optimal_chooser, isError]
    · cases g <;> cases res2 <;>
        simp_all [call_inner_pulse, pulse_optimal_chooser, isError, hb]
  · by_cases hb : basis = EulerBasis.ZSX ∨ basis = EulerBasis.ZSXX
    · rcases hb with hb | hb <;> subst hb <;> cases g <;> cases res3 <;>
        simp [call_inner_pulse, pulse_optimal_chooser, isError]
    · cases g <;> cases res3 <;>
        simp_all [call_inner_pulse, pulse_optimal_chooser, isError, hb]
  · have h34 : 3 < n + 4 := by omega
    have hne2 : ¬(n + 4 = 2) := by omega
    have hne3 : ¬(n + 4 = 3) := by omega
    simp [call_inner_pulse, pulse_optimal_chooser, isError, h34, hne2, hne3]

theorem diag_loop_aux_stream_eq
    (eig : Matrix (Fin 4) (Fin 4) ℝ → Matrix (Fin 4) (Fin 4) ℝ)
    (m2 : Matrix (Fin 4) (Fin 4) ℂ) (s₁ s₂ : ℕ → ℝ × ℝ)
    (h : ∀ i, 1 ≤ i → s₁ i = s₂ i) :
    ∀ fuel i, diag_loop_aux eig s₁ m2 fuel i = diag_loop_aux eig s₂ m2 fuel i := by
  intro fuel
  induction fuel with
  | zero => intro i; rfl
  | succ n ih =>
      intro i
      have hp : trial_pair s₁ i = trial_pair s₂ i := by
        unfold trial_pair
        by_cases hi : i = 0
        · simp [hi]
        · simp [hi, h i (Nat.one_le_iff_ne_zero.mpr hi)]
      simp only [diag_loop_aux, hp]
      cases diag_trial eig m2 (trial_pair s₂ i) with
      | some r => rfl
      | none => exact ih (i + 1)

/-- C9: the randomized-retry diagonalization is deterministic given the
input matrix: its outcome does not depend on position 0 of the random
stream (the first trial uses the fixed verbatim pair), and any two runs
with the same seeded stream (the source seeds PCG64 with the constant 2023)
agree.  Formally, any two streams agreeing from index 1 on produce the same
result. -/
theorem diag_loop_deterministic
    (eig : Matrix (Fin 4) (Fin 4) ℝ → Matrix (Fin 4) (Fin 4) ℝ)
    (m2 : Matrix (Fin 4) (Fin 4) ℂ) (s₁ s₂ : ℕ → ℝ × ℝ)
    (h : ∀ i, 1 ≤ i → s₁ i = s₂ i) :
    diag_loop eig s₁ m2 = diag_loop eig s₂ m2 :=
  diag_loop_aux_stream_eq eig m2 s₁ s₂ h 100 0

/-- C9 witness: two concrete streams that differ only at index 0 give the
same diagonalization outcome. -/
theorem diag_loop_deterministic_witness :
    (∀ i : ℕ, 1 ≤ i →
        (fun _ : ℕ => ((0 : ℝ), (0 : ℝ))) i
          = (fun j : ℕ => if j = 0 then ((1 : ℝ), (1 : ℝ)) else ((0 : ℝ), (0 : ℝ))) i) ∧
      diag_loop id (fun _ => ((0 : ℝ), (0 : ℝ))) (0 : Matrix (Fin 4) (Fin 4) ℂ)
        = diag_loop id (fun j => if j = 0 then ((1 : ℝ), (1 : ℝ)) else ((0 : ℝ), (0 : ℝ))) 0 := by
  have h : ∀ i : ℕ, 1 ≤ i →
      (fun _ : ℕ => ((0 : ℝ), (0 : ℝ))) i
        = (fun j : ℕ => if j = 0 then ((1 : ℝ), (1 : ℝ)) else ((0 : ℝ), (0 : ℝ))) i := by
    intro i hi
    have hi0 : i ≠ 0 := by omega
    simp [hi0]
  exact ⟨h, diag_loop_deterministic id 0 _ _ h⟩

theorem four_mul_cplx (x y : ℝ) : (4 : ℂ) * cplx x y = cplx (4 * x) (4 * y) := by
  unfold cplx
  apply Complex.ext <;> simp

theorem calculated_fidelity_id_quarter :
    calculated_fidelity Specialization.IdEquiv PI4 0 0 = 3 / 5 := by
  have h2 : Real.sqrt 2 * Real.sqrt 2 = 2 := Real.mul_self_sqrt (by norm_num)
  have hc : Real.cos PI4 = Real.sqrt 2 / 2 := by
    rw [PI4]; exact Real.cos_pi_div_four
  have hflip : ¬flipped_from_original Specialization.IdEquiv 0 := by
    simp [flipped_from_original]
  unfold calculated_fidelity specialization_trace specializedAngles
  simp only [if_neg hflip, four_mul_cplx, trace_to_fid_cplx, sub_zero,
    Real.cos_zero, Real.sin_zero, hc]
  linear_combination (1 : ℝ) / 5 * h2

/-- C4: given a requested fidelity, the specialization stage of `new_inner`
(lines 1051-1080) fails exactly when the calculated fidelity of the
specialized decomposition is worse than the requested one by more than
`1.0e-13`; in particular forcing `IdEquiv` on a generic unitary with Weyl
angles `(π/4, 0, 0)` and requested fidelity `1` fails with the fidelity
error. -/
theorem specialization_fidelity_check_iff :
    (∀ (s : Specialization) (a b c fid : ℝ),
        isError (specialization_fidelity_check s a b c (some fid)) = true ↔
          calculated_fidelity s a b c + 1e-13 < fid) ∧
      isError (specialization_fidelity_check Specialization.IdEquiv PI4 0 0 (some 1))
        = true := by
  constructor
  · intro s a b c fid
    unfold specialization_fidelity_check
    by_cases h : calculated_fidelity s a b c + 1e-13 < fid
    · simp [h, isError]
    · simp [h, isError]
  · simp only [specialization_fidelity_check, calculated_fidelity_id_quarter]
    rw [if_pos (by norm_num)]
    rfl

open Classical in
theorem decompose_two_qubit_product_gate_eq (U : Matrix (Fin 4) (Fin 4) ℂ) :
    decompose_two_qubit_product_gate U =
      if Complex.abs (det_one_qubit (chosen_block U)) < 0.1 then
        Except.error "decompose_two_qubit_product_gate: unable to decompose: detR < 0.1"
      else if Complex.abs (det_one_qubit (left_candidate U)) < 0.9 then
        Except.error "decompose_two_qubit_product_gate: unable to decompose: detL < 0.9"
      else
        Except.ok
          (Matrix.of fun i j =>
              left_candidate U i j / csqrt (det_one_qubit (left_candidate U)),
            normalized_r U, (det_one_qubit (left_candidate U)).arg / 2) := by
  unfold decompose_two_qubit_product_gate chosen_block normalized_r left_candidate
  by_cases hA : Complex.abs (det_one_qubit (ul_block U)) < 0.1 <;>
    simp [hA, normalized_r, chosen_block]

open Classical in
/-- C5 (amended): `decompose_two_qubit_product_gate` prefers the upper-left
block, falling back to the lower-left one only when the upper-left
determinant magnitude is below 0.1 (not a larger-magnitude selection); it
errors exactly when both candidates are below 0.1, or when a candidate was
accepted but the recovered left factor's determinant magnitude falls below
0.9; on success the returned `r` is the chosen block normalized by the
square root of its determinant. -/
theorem product_gate_characterization (U : Matrix (Fin 4) (Fin 4) ℂ) :
    (isError (decompose_two_qubit_product_gate U) = true ↔ product_decompose_fails U) ∧
      result_r (decompose_two_qubit_product_gate U)
        = if product_decompose_fails U then none else some (normalized_r U) := by
  have hiff : Complex.abs (det_one_qubit (chosen_block U)) < 0.1 ↔
      (Complex.abs (det_one_qubit (ul_block U)) < 0.1 ∧
        Complex.abs (det_one_qubit (ll_block U)) < 0.1) := by
    by_cases hA : Complex.abs (det_one_qubit (ul_block U)) < 0.1 <;>
      simp [chosen_block, hA]
  unfold product_decompose_fails
  rw [← hiff, decompose_two_qubit_product_gate_eq U]
  by_cases hC : Complex.abs (det_one_qubit (chosen_block U)) < 0.1
  · simp [hC, isError, result_r]
  · by_cases hL : Complex.abs (det_one_qubit (left_candidate U)) < 0.9 <;>
      simp [hC, hL, isError, result_r]

/-- C5 counterexample: on `U_c5 = diag(1, 1, 0, 1)` the upper-left candidate
block has determinant magnitude 1 (so the candidates are *not* both below
the 0.1 threshold), yet `decompose_two_qubit_product_gate` still returns an
"unable to decompose" error (the `detL < 0.9` branch) — refuting "errors
exactly when both candidate blocks have determinant magnitude below 0.1". -/
theorem product_gate_cex :
    isError (decompose_two_qubit_product_gate U_c5) = true ∧
      ¬(Complex.abs (det_one_qubit (ul_block U_c5)) < 0.1 ∧
        Complex.abs (det_one_qubit (ll_block U_c5)) < 0.1) := by
  have v2 : ((2 : Fin 4) : ℕ) = 2 := rfl
  have v3 : ((3 : Fin 4) : ℕ) = 3 := rfl
  have hul : ul_block U_c5 = 1 := by
    ext i j
    fin_cases i <;> fin_cases j <;>
      simp [ul_block, U_c5, Matrix.one_apply, Fin.ext_iff, v2, v3]
  have hdul : det_one_qubit (ul_block U_c5) = 1 := by
    rw [hul]
    simp [det_one_qubit, Matrix.one_apply]
  have hA : ¬Complex.abs (det_one_qubit (ul_block U_c5)) < 0.1 := by
    rw [hdul]
    norm_num
  have hch : chosen_block U_c5 = 1 := by
    unfold chosen_block
    rw [if_neg hA, hul]
  have hdet1 : det_one_qubit (1 : Matrix (Fin 2) (Fin 2) ℂ) = 1 := by
    simp [det_one_qubit, Matrix.one_apply]
  have hnr : normalized_r U_c5 = 1 := by
    unfold normalized_r
    rw [hch, hdet1]
    unfold csqrt
    rw [Complex.one_cpow]
    ext i j
    simp
  have hk : kron2 1 (1 : Matrix (Fin 2) (Fin 2) ℂ) = 1 := by
    ext i j
    fin_cases i <;> fin_cases j <;>
      simp [kron2, Matrix.one_apply, Fin.ext_iff, v2, v3]
  have hlc : left_candidate U_c5 = downsample U_c5 := by
    unfold left_candidate
    rw [hnr, Matrix.conjTranspose_one, hk, Matrix.mul_one]
  have hdl : det_one_qubit (left_candidate U_c5) = 0 := by
    rw [hlc]
    simp [det_one_qubit, downsample, U_c5, Fin.ext_iff, v2, v3]
  have hC : ¬Complex.abs (det_one_qubit (chosen_block U_c5)) < 0.1 := by
    rw [hch, hdet1]
    norm_num
  have hL : Complex.abs (det_one_qubit (left_candidate U_c5)) < 0.9 := by
    rw [hdl]
    norm_num
  constructor
  · rw [decompose_two_qubit_product_gate_eq, if_neg hC, if_pos hL]
    rfl
  · intro h
    exact hA h.1

theorem fmod_nonneg (x y : ℝ) (hy : 0 < y) : 0 ≤ fmod x y := by
  unfold fmod
  rw [sub_nonneg, mul_comm]
  exact (le_div_iff hy).mp (Int.floor_le _)

theorem fmod_lt (x y : ℝ) (hy : 0 < y) : fmod x y < y := by
  unfold fmod
  have h := (div_lt_iff hy).mp (Int.lt_floor_add_one (x / y))
  nlinarith

theorem fmod_eq (x y : ℝ) (n : ℤ) (hy : 0 < y)
    (h0 : (n : ℝ) * y ≤ x) (h1 : x < ((n : ℝ) + 1) * y) :
    fmod x y = x - (n : ℝ) * y := by
  unfold fmod
  have hfl : ⌊x / y⌋ = n := by
    rw [Int.floor_eq_iff]
    constructor
    · exact (le_div_iff hy).mpr h0
    · rw [div_lt_iff hy]
      push_cast
      linarith
  rw [hfl]
  ring

theorem cstemp_val_nonneg (x : ℝ) : 0 ≤ cstemp_val x := by
  have h2 : 0 < PI2 := by unfold PI2; linarith [Real.pi_pos]
  have h0 := fmod_nonneg x PI2 h2
  have h1 := fmod_lt x PI2 h2
  unfold cstemp_val
  exact le_min h0 (by linarith)

theorem cstemp_val_le_pi4 (x : ℝ) : cstemp_val x ≤ PI4 := by
  have hpi := Real.pi_pos
  have h2 : 0 < PI2 := by unfold PI2; linarith
  have h0 := fmod_nonneg x PI2 h2
  have h1 := fmod_lt x PI2 h2
  unfold cstemp_val
  rcases le_or_lt (fmod x PI2) PI4 with h | h
  · exact le_trans (min_le_left _ _) h
  · apply le_trans (min_le_right _ _)
    unfold PI4 PI2 at *
    linarith

theorem flipB_min (y : ℝ) (h0 : 0 ≤ y) (h1 : y ≤ PI2) :
    flipB y = min y (PI2 - y) := by
  have hpi := Real.pi_pos
  unfold flipB
  rcases le_or_lt y PI4 with h | h
  · rw [if_neg (not_lt.mpr h), min_eq_left]
    unfold PI4 PI2 at *
    linarith
  · rw [if_pos h, min_eq_right]
    unfold PI4 PI2 at *
    linarith

theorem flipA_mem (x : ℝ) (hx : chamber_dom x) :
    0 ≤ flipA x ∧ flipA x ≤ PI2 := by
  have hpi := Real.pi_pos
  unfold flipA
  rcases hx with ⟨h0, h1⟩ | ⟨h0, h1⟩
  · rw [if_neg (not_lt.mpr h1)]
    exact ⟨h0, h1⟩
  · rw [if_pos]
    · unfold PI32 PI2 TWO_PI at *
      constructor <;> linarith
    · unfold PI32 PI2 at *
      linarith

theorem cstemp_eq_min_flipA (x : ℝ) (hx : chamber_dom x) :
    cstemp_val x = min (flipA x) (PI2 - flipA x) := by
  have hpi := Real.pi_pos
  unfold cstemp_val flipA
  rcases hx with ⟨h0, h1⟩ | ⟨h0, h1⟩
  · rw [if_neg (not_lt.mpr h1)]
    rcases eq_or_lt_of_le h1 with heq | hlt
    · subst heq
      have hm : fmod PI2 PI2 = 0 := by
        have := fmod_eq PI2 PI2 1 (by unfold PI2; linarith)
          (by push_cast; linarith) (by push_cast; unfold PI2; linarith)
        simpa using this
      rw [hm]
      have hp2 : 0 ≤ PI2 := by unfold PI2; linarith
      rw [min_eq_left (by linarith), min_eq_right (by linarith)]
      ring
    · have hm : fmod x PI2 = x := by
        have := fmod_eq x PI2 0 (by unfold PI2; linarith) (by push_cast; linarith)
          (by push_cast; unfold PI2 at *; linarith)
        simpa using this
      rw [hm]
  · have hgt : PI2 < x := by
      unfold PI32 PI2 at *
      linarith
    rw [if_pos hgt]
    have hm : fmod x PI2 = x - PI32 := by
      have := fmod_eq x PI2 3 (by unfold PI2; linarith)
        (by push_cast; unfold PI32 PI2 at *; linarith)
        (by push_cast; unfold PI32 PI2 TWO_PI at *; linarith)
      rw [this]
      unfold PI32 PI2
      ring
    rw [hm]

theorem flipAB_eq_cstemp (x : ℝ) (hx : chamber_dom x) :
    flipB (flipA x) = cstemp_val x := by
  obtain ⟨hA0, hA1⟩ := flipA_mem x hx
  rw [flipB_min _ hA0 hA1, cstemp_eq_min_flipA x hx]

theorem abs_flipC_eq_cstemp (conjs : ℕ) (x : ℝ) (hx : chamber_dom x) :
    |flipC conjs x| = cstemp_val x := by
  have hpi := Real.pi_pos
  obtain ⟨hA0, hA1⟩ := flipA_mem x hx
  rw [cstemp_eq_min_flipA x hx]
  have hC : flipC conjs x
      = (if (if conjs = 1 then PI2 - flipA x else flipA x) > PI4
          then (if conjs = 1 then PI2 - flipA x else flipA x) - PI2
          else (if conjs = 1 then PI2 - flipA x else flipA x)) := by
    unfold flipC flipA
    rfl
  rw [hC]
  have hp24 : PI4 + PI4 = PI2 := by
    unfold PI4 PI2
    ring
  have hp4 : 0 < PI4 := by
    unfold PI4
    linarith
  by_cases hc : conjs = 1
  · rw [if_pos hc]
    by_cases h : PI2 - flipA x > PI4
    · rw [if_pos h, min_eq_left (by linarith)]
      rw [abs_of_nonpos (by linarith), ]
      ring
    · rw [if_neg h, min_eq_right (by linarith)]
      rw [abs_of_nonneg (by linarith)]
  · rw [if_neg hc]
    by_cases h : flipA x > PI4
    · rw [if_pos h, min_eq_right (by linarith)]
      rw [abs_of_nonpos (by linarith)]
      ring
    · rw [if_neg h, min_eq_left (by linarith)]
      rw [abs_of_nonneg (by linarith)]

theorem argSort3_sorted (k : Fin 3 → ℝ) :
    k (argSort3 (k 0) (k 1) (k 2)).1 ≤ k (argSort3 (k 0) (k 1) (k 2)).2.1 ∧
      k (argSort3 (k 0) (k 1) (k 2)).2.1 ≤ k (argSort3 (k 0) (k 1) (k 2)).2.2 := by
  unfold argSort3
  split_ifs with h1 h2 h3 h4 h5 <;>
    refine ⟨by linarith, by linarith⟩

theorem fmod_two_pi_mem (z : ℝ) (hz1 : -PI2 < z) (hz2 : z ≤ PI2) :
    chamber_dom (fmod z TWO_PI) := by
  have hpi := Real.pi_pos
  rcases le_or_lt 0 z with h | h
  · left
    have hm : fmod z TWO_PI = z := by
      have := fmod_eq z TWO_PI 0 (by unfold TWO_PI; linarith)
        (by push_cast; linarith)
        (by push_cast; unfold TWO_PI PI2 at *; linarith)
      simpa using this
    rw [hm]
    exact ⟨h, hz2⟩
  · right
    have hm : fmod z TWO_PI = z + TWO_PI := by
      have := fmod_eq z TWO_PI (-1) (by unfold TWO_PI; linarith)
        (by push_cast; unfold TWO_PI PI2 at *; linarith)
        (by push_cast; linarith)
      rw [this]
      ring
    rw [hm]
    unfold PI32 TWO_PI PI2 at *
    constructor <;> linarith

theorem weyl_cs_mem (d0 d1 d2 : ℝ)
    (h0l : -PI2 ≤ d0) (h0r : d0 < PI2)
    (h1l : -PI2 ≤ d1) (h1r : d1 < PI2)
    (h2l : -PI2 ≤ d2) (h2r : d2 < PI2) :
    ∀ i : Fin 3, chamber_dom (weyl_cs d0 d1 d2 i) := by
  intro i
  fin_cases i <;>
    simp only [weyl_cs, weyl_d3, Matrix.cons_val_zero, Matrix.cons_val_one,
      Matrix.head_cons, Matrix.cons_val_two, Matrix.tail_cons] <;>
    apply fmod_two_pi_mem <;>
    (unfold PI2 at *; linarith)

/-- C2: the canonical angles `(a, b, c)` produced by the Weyl-chamber
reduction of `TwoQubitWeylDecomposition::new_inner` (which are the returned
angles when the resulting specialization is `General`) satisfy
`π/4 ≥ a ≥ b ≥ |c| ≥ 0`, for any eigenphase-derived inputs
`d[i] = -arg(λ_i)/2 ∈ [-π/2, π/2)`. -/
theorem weyl_chamber_invariant (d0 d1 d2 : ℝ)
    (h0l : -PI2 ≤ d0) (h0r : d0 < PI2)
    (h1l : -PI2 ≤ d1) (h1r : d1 < PI2)
    (h2l : -PI2 ≤ d2) (h2r : d2 < PI2) :
    PI4 ≥ (weyl_chamber_angles d0 d1 d2).1 ∧
      (weyl_chamber_angles d0 d1 d2).1 ≥ (weyl_chamber_angles d0 d1 d2).2.1 ∧
      (weyl_chamber_angles d0 d1 d2).2.1 ≥ |(weyl_chamber_angles d0 d1 d2).2.2| ∧
      |(weyl_chamber_angles d0 d1 d2).2.2| ≥ 0 := by
  have hmem := weyl_cs_mem d0 d1 d2 h0l h0r h1l h1r h2l h2r
  have hsort : cstemp_val (weyl_cs d0 d1 d2 (weyl_order d0 d1 d2).1)
        ≤ cstemp_val (weyl_cs d0 d1 d2 (weyl_order d0 d1 d2).2.1) ∧
      cstemp_val (weyl_cs d0 d1 d2 (weyl_order d0 d1 d2).2.1)
        ≤ cstemp_val (weyl_cs d0 d1 d2 (weyl_order d0 d1 d2).2.2) := by
    unfold weyl_order
    exact argSort3_sorted (fun i => cstemp_val (weyl_cs d0 d1 d2 i))
  have hw : weyl_chamber_angles d0 d1 d2
      = (flipB (flipA (weyl_cs d0 d1 d2 (weyl_order d0 d1 d2).2.2)),
          flipB (flipA (weyl_cs d0 d1 d2 (weyl_order d0 d1 d2).2.1)),
          flipC ((if flipA (weyl_cs d0 d1 d2 (weyl_order d0 d1 d2).2.1) > PI4
                    then 1 else 0)
              + (if flipA (weyl_cs d0 d1 d2 (weyl_order d0 d1 d2).2.2) > PI4
                    then 1 else 0))
            (weyl_cs d0 d1 d2 (weyl_order d0 d1 d2).1)) := rfl
  rw [hw]
  dsimp only
  rw [flipAB_eq_cstemp _ (hmem _), flipAB_eq_cstemp _ (hmem _),
    abs_flipC_eq_cstemp _ _ (hmem _)]
  exact ⟨cstemp_val_le_pi4 _, hsort.2, hsort.1, cstemp_val_nonneg _⟩

/-- C2 witness: the chamber invariant applied at the concrete admissible
eigenphase values `d0 = d1 = d2 = 0`. -/
theorem weyl_chamber_invariant_witness :
    (-PI2 ≤ (0 : ℝ) ∧ (0 : ℝ) < PI2) ∧
      (PI4 ≥ (weyl_chamber_angles 0 0 0).1 ∧
        (weyl_chamber_angles 0 0 0).1 ≥ (weyl_chamber_angles 0 0 0).2.1 ∧
        (weyl_chamber_angles 0 0 0).2.1 ≥ |(weyl_chamber_angles 0 0 0).2.2| ∧
        |(weyl_chamber_angles 0 0 0).2.2| ≥ 0) := by
  have h1 : -PI2 ≤ (0 : ℝ) := by
    unfold PI2
    linarith [Real.pi_pos]
  have h2 : (0 : ℝ) < PI2 := by
    unfold PI2
    linarith [Real.pi_pos]
  exact ⟨⟨h1, h2⟩, weyl_chamber_invariant 0 0 0 h1 h2 h1 h2 h1 h2⟩

end TwoQubitDecompose
